import Mathlib

/-!
Verification of the dimensional data-binding and faceting engine described by
the specification of this repository (tutorial notebooks over a tabular
visualization object model).  The engine itself (Dataset Core, grouping,
aggregation, slicing, element binding, container composition) is exercised by
the notebooks but its implementation is not part of the repository's files,
so every definition below is modelled from the specification's own words and
each property is settled against that model.
-/

namespace PyViz

/-- Modelled from the spec: a cell value of a tabular buffer — either a
categorical (string) value such as a country name, or a numeric value on a
continuous coordinate, modelled as a rational number. -/
inductive Value where
  | str : String → Value
  | num : ℚ → Value
deriving DecidableEq, Repr

/-- Modelled from the spec: one observation (row) of a tidy tabular buffer,
an association of column (dimension) names to cell values. -/
abbrev Row := List (String × Value)

/-- Modelled from the spec: the Dataset Core — an ordered sequence of key
dimensions, an ordered sequence of value dimensions, and a backing
row-oriented tabular buffer (one column per declared dimension, matched by
name). -/
structure Dataset where
  kdims : List String
  vdims : List String
  rows : List Row
deriving DecidableEq, Repr

/-- The value a row holds for a named dimension (the column lookup). -/
def rowVal (r : Row) (d : String) : Option Value :=
  r.lookup d

/-- The tuple of values a row holds for a list of dimensions: the group key
of that row under a grouping by those dimensions. -/
def rowKey (dims : List String) (r : Row) : List (Option Value) :=
  dims.map (rowVal r)

/-- Auxiliary for `firstOccurs`: the elements of the list not yet in `seen`,
each kept once, in first-occurrence order. -/
def firstOccursAux {α : Type} [DecidableEq α] (seen : List α) : List α → List α
  | [] => []
  | a :: t =>
    if a ∈ seen then firstOccursAux seen t
    else a :: firstOccursAux (a :: seen) t

/-- The distinct elements of a list in first-occurrence order. -/
def firstOccurs {α : Type} [DecidableEq α] (l : List α) : List α :=
  firstOccursAux [] l

/-- Modelled from the spec: the keys of `groupBy(dataset, dims)` — the
distinct combinations of values observed for `dims`, in first-occurrence
order of the dataset's rows; grouping by the empty dimension list is the
single-entry collapse keyed by the empty tuple. -/
def groupKeys (D : Dataset) (dims : List String) : List (List (Option Value)) :=
  if dims = [] then [[]] else firstOccurs (D.rows.map (rowKey dims))

/-- The rows of a dataset whose key tuple for `dims` equals `k`. -/
def groupRows (D : Dataset) (dims : List String) (k : List (Option Value)) : List Row :=
  D.rows.filter (fun r => decide (rowKey dims r = k))

/-- Modelled from the spec: `groupBy(dataset, dims)` — the group collection
keyed by the distinct value combinations observed for `dims` in
first-occurrence order, each key mapped to the Dataset Core restricted to
the rows matching that key (all dimension declarations retained); the empty
dimension list yields one group containing the entire dataset unpartitioned. -/
def groupBy (D : Dataset) (dims : List String) : List (List (Option Value) × Dataset) :=
  (groupKeys D dims).map (fun k => (k, { D with rows := groupRows D dims k }))

theorem mem_firstOccursAux {α : Type} [DecidableEq α] (l : List α) (seen : List α) (a : α) :
    a ∈ firstOccursAux seen l ↔ a ∈ l ∧ a ∉ seen := by
  induction l generalizing seen with
  | nil => simp [firstOccursAux]
  | cons b t ih =>
    by_cases hb : b ∈ seen
    · rw [firstOccursAux, if_pos hb, ih]
      simp only [List.mem_cons]
      constructor
      · rintro ⟨ht, hs⟩
        exact ⟨Or.inr ht, hs⟩
      · rintro ⟨hbt, hs⟩
        rcases hbt with h | h
        · exact absurd (h ▸ hb) hs
        · exact ⟨h, hs⟩
    · rw [firstOccursAux, if_neg hb]
      simp only [List.mem_cons, ih]
      constructor
      · rintro (rfl | ⟨ht, hs⟩)
        · exact ⟨Or.inl rfl, hb⟩
        · exact ⟨Or.inr ht, fun hsn => hs (Or.inr hsn)⟩
      · rintro ⟨rfl | ht, hs⟩
        · exact Or.inl rfl
        · by_cases hab : a = b
          · exact Or.inl hab
          · refine Or.inr ⟨ht, fun hsn => ?_⟩
            rcases hsn with h | h
            · exact hab h
            · exact hs h

theorem nodup_firstOccursAux {α : Type} [DecidableEq α] (l : List α) (seen : List α) :
    (firstOccursAux seen l).Nodup := by
  induction l generalizing seen with
  | nil => simp [firstOccursAux]
  | cons b t ih =>
    by_cases hb : b ∈ seen
    · rw [firstOccursAux, if_pos hb]
      exact ih seen
    · rw [firstOccursAux, if_neg hb, List.nodup_cons]
      refine ⟨fun hmem => ?_, ih (b :: seen)⟩
      exact ((mem_firstOccursAux t (b :: seen) b).mp hmem).2 (List.mem_cons_self b seen)

theorem firstOccurs_mem {α : Type} [DecidableEq α] (l : List α) (a : α) :
    a ∈ firstOccurs l ↔ a ∈ l := by
  rw [firstOccurs, mem_firstOccursAux]
  simp

theorem firstOccurs_nodup {α : Type} [DecidableEq α] (l : List α) :
    (firstOccurs l).Nodup :=
  nodup_firstOccursAux l []

theorem groupKeys_nodup (D : Dataset) (dims : List String) : (groupKeys D dims).Nodup := by
  unfold groupKeys
  split
  · simp
  · exact firstOccurs_nodup _

theorem rowKey_mem_groupKeys (D : Dataset) (dims : List String) (r : Row) (hr : r ∈ D.rows) :
    rowKey dims r ∈ groupKeys D dims := by
  unfold groupKeys
  split
  · next h => subst h; simp [rowKey]
  · rw [firstOccurs_mem]
    exact List.mem_map.mpr ⟨r, hr, rfl⟩

theorem flatMap_congr_mem {α β : Type} {l : List α} {f g : α → List β}
    (h : ∀ a ∈ l, f a = g a) : l.flatMap f = l.flatMap g := by
  induction l with
  | nil => rfl
  | cons a t ih =>
    simp only [List.flatMap_cons]
    rw [h a (List.mem_cons_self a t), ih (fun x hx => h x (List.mem_cons_of_mem a hx))]

theorem flatMap_filter_key_perm {α κ : Type} [DecidableEq κ] (key : α → κ) :
    ∀ (keys : List κ) (rows : List α), keys.Nodup → (∀ a ∈ rows, key a ∈ keys) →
      (keys.flatMap (fun k => rows.filter (fun a => decide (key a = k)))).Perm rows := by
  intro keys
  induction keys with
  | nil =>
    intro rows _ hcov
    have hnil : rows = [] := by
      rw [List.eq_nil_iff_forall_not_mem]
      intro a ha
      exact absurd (hcov a ha) (List.not_mem_nil _)
    simp [hnil]
  | cons k ks ih =>
    intro rows hnd hcov
    rw [List.nodup_cons] at hnd
    have hstep : ks.flatMap (fun k' => rows.filter (fun a => decide (key a = k')))
        = ks.flatMap (fun k' =>
            (rows.filter (fun a => !decide (key a = k))).filter
              (fun a => decide (key a = k'))) := by
      refine flatMap_congr_mem (fun k' hk' => ?_)
      rw [List.filter_filter]
      refine (List.filter_congr (fun a _ => ?_)).symm
      by_cases hak : key a = k'
      · have hkk : k' ≠ k := fun h => hnd.1 (h ▸ hk')
        have hnk : ¬ key a = k := fun h => hkk (hak.symm.trans h)
        simp [hak, hnk, hkk]
      · simp [hak]
    have hcov' : ∀ a ∈ rows.filter (fun a => !decide (key a = k)), key a ∈ ks := by
      intro a ha
      have hmem := List.mem_filter.mp ha
      have hne : ¬ key a = k := by
        have := hmem.2
        simp only [Bool.not_eq_true', decide_eq_false_iff_not] at this
        exact this
      rcases List.mem_cons.mp (hcov a hmem.1) with h | h
      · exact absurd h hne
      · exact h
    have hperm' := ih (rows.filter (fun a => !decide (key a = k))) hnd.2 hcov'
    have hhead : (k :: ks).flatMap (fun k' => rows.filter (fun a => decide (key a = k')))
        = rows.filter (fun a => decide (key a = k))
            ++ ks.flatMap (fun k' => rows.filter (fun a => decide (key a = k'))) := by
      simp [List.flatMap_cons]
    rw [hhead, hstep]
    exact (hperm'.append_left _).trans (List.filter_append_perm _ rows)

/-- Claim C1: for every Dataset Core and every subset of dimensions,
`groupBy` partitions the dataset's rows exhaustively and disjointly — the
concatenation of the group members' rows is a permutation of the dataset's
rows, no row occurrence lies in two distinct groups, and the groups are keyed
by the distinct value combinations observed for the dimensions in
first-occurrence order of the dataset's rows. -/
theorem groupBy_partitions (D : Dataset) (dims : List String) :
    ((groupBy D dims).flatMap (fun g => g.2.rows)).Perm D.rows
    ∧ (∀ g₁ ∈ groupBy D dims, ∀ g₂ ∈ groupBy D dims, g₁ ≠ g₂ →
        ∀ r ∈ g₁.2.rows, r ∉ g₂.2.rows)
    ∧ (groupBy D dims).map Prod.fst = groupKeys D dims := by
  refine ⟨?_, ?_, ?_⟩
  · have h := flatMap_filter_key_perm (rowKey dims) (groupKeys D dims) D.rows
      (groupKeys_nodup D dims) (fun r hr => rowKey_mem_groupKeys D dims r hr)
    have heq : (groupBy D dims).flatMap (fun g => g.2.rows)
        = (groupKeys D dims).flatMap
            (fun k => D.rows.filter (fun r => decide (rowKey dims r = k))) := by
      rw [groupBy, List.flatMap_map]
      rfl
    rw [heq]
    exact h
  · intro g₁ hg₁ g₂ hg₂ hne r hr₁ hr₂
    obtain ⟨k₁, hk₁, rfl⟩ := List.mem_map.mp hg₁
    obtain ⟨k₂, hk₂, rfl⟩ := List.mem_map.mp hg₂
    have hk : k₁ ≠ k₂ := fun h => hne (by rw [h])
    have h₁ := (List.mem_filter.mp hr₁).2
    have h₂ := (List.mem_filter.mp hr₂).2
    rw [decide_eq_true_eq] at h₁ h₂
    exact hk (h₁.symm.trans h₂)
  · rw [groupBy, List.map_map]
    exact List.map_id _

/-- Claim C4: grouping by the empty dimension list is a total single-entry
collapse — it returns exactly one group, keyed by the empty tuple, whose
content is the entire dataset unpartitioned. -/
theorem groupBy_empty_dims (D : Dataset) : groupBy D [] = [([], D)] := by
  obtain ⟨k, v, rs⟩ := D
  simp [groupBy, groupKeys, groupRows, rowKey]

/-- The numeric values a list of rows holds for a value dimension, collected
in row order (non-numeric or missing cells contribute nothing). -/
def collectNum (rows : List Row) (d : String) : List ℚ :=
  rows.filterMap (fun r =>
    match rowVal r d with
    | some (Value.num q) => some q
    | _ => none)

/-- The key part of an aggregate result row: each `byDims` dimension paired
with its (constant) value in the group. -/
def keyRow (byDims : List String) (k : List (Option Value)) : Row :=
  (byDims.zip k).filterMap (fun p => p.2.map (fun v => (p.1, v)))

/-- The column name carrying the paired dispersion value of a reduced value
dimension. -/
def spreadName (d : String) : String :=
  d ++ "_spread"

/-- Modelled from the spec: the value columns of one aggregate result row —
for each value dimension, the reduction function applied to the collected
values of that dimension within the group, followed, when a spread function
is supplied, by the paired dispersion value computed by the spread function
over the same collected values. -/
def reducedCols (vdims : List String) (f : List ℚ → ℚ) (s : Option (List ℚ → ℚ))
    (rows : List Row) : Row :=
  vdims.flatMap (fun d =>
    (d, Value.num (f (collectNum rows d))) ::
      (match s with
       | none => []
       | some sf => [(spreadName d, Value.num (sf (collectNum rows d)))]))

/-- Modelled from the spec: `aggregate(dataset, byDims, reduceFn, spreadFn)` —
an Aggregate result whose key dimensions are `byDims`, with one row per
distinct combination of `byDims` values (first-occurrence order, via the
same group partition as `groupBy`), each value dimension reduced by
`reduceFn` over the group's collected values and, when `spreadFn` is
supplied, paired with a dispersion column computed by `spreadFn`. -/
def aggregate (D : Dataset) (byDims : List String) (f : List ℚ → ℚ)
    (s : Option (List ℚ → ℚ)) : Dataset :=
  { kdims := byDims
    vdims :=
      match s with
      | none => D.vdims
      | some _ => D.vdims.flatMap (fun d => [d, spreadName d])
    rows := (groupBy D byDims).map
      (fun g => keyRow byDims g.1 ++ reducedCols D.vdims f s g.2.rows) }

theorem flatMap_single {α β : Type} (l : List α) (g : α → β) :
    (l.flatMap fun a => [g a]) = l.map g := by
  induction l with
  | nil => rfl
  | cons a t ih => simp [List.flatMap_cons, ih]

theorem aggregate_rows_eq (D : Dataset) (byDims : List String)
    (f : List ℚ → ℚ) (s : Option (List ℚ → ℚ)) :
    (aggregate D byDims f s).rows
      = (groupKeys D byDims).map
          (fun k => keyRow byDims k ++ reducedCols D.vdims f s (groupRows D byDims k)) := by
  unfold aggregate
  rw [groupBy, List.map_map]
  rfl

/-- Claim C2: `aggregate` produces exactly one output row per distinct
combination of `byDims` values (the group keys are duplicate-free and cover
every row's key tuple), and each output row carries, for each value
dimension, the reduction function applied to the collected values of that
dimension within the corresponding group of the partition — with a paired
dispersion column computed by the spread function over the same group
partition when a spread function is supplied, and without it otherwise. -/
theorem aggregate_reduces_per_group (D : Dataset) (byDims : List String)
    (f sf : List ℚ → ℚ) :
    (groupKeys D byDims).Nodup
    ∧ (∀ r ∈ D.rows, rowKey byDims r ∈ groupKeys D byDims)
    ∧ (aggregate D byDims f (some sf)).rows
        = (groupKeys D byDims).map (fun k =>
            keyRow byDims k ++ D.vdims.flatMap (fun d =>
              [(d, Value.num (f (collectNum (groupRows D byDims k) d))),
               (spreadName d, Value.num (sf (collectNum (groupRows D byDims k) d)))]))
    ∧ (aggregate D byDims f none).rows
        = (groupKeys D byDims).map (fun k =>
            keyRow byDims k ++ D.vdims.map (fun d =>
              (d, Value.num (f (collectNum (groupRows D byDims k) d))))) := by
  refine ⟨groupKeys_nodup D byDims, fun r hr => rowKey_mem_groupKeys D byDims r hr, ?_, ?_⟩
  · rw [aggregate_rows_eq]
    rfl
  · rw [aggregate_rows_eq]
    refine List.map_congr_left (fun k _ => ?_)
    rw [reducedCols, flatMap_single]

theorem collectNum_perm {rows rows' : List Row} (h : rows'.Perm rows) (d : String) :
    (collectNum rows' d).Perm (collectNum rows d) :=
  h.filterMap _

theorem groupRows_perm {D D' : Dataset} (dims : List String) (k : List (Option Value))
    (h : D'.rows.Perm D.rows) : (groupRows D' dims k).Perm (groupRows D dims k) :=
  h.filter _

theorem groupKeys_perm {D D' : Dataset} (dims : List String)
    (h : D'.rows.Perm D.rows) : (groupKeys D' dims).Perm (groupKeys D dims) := by
  unfold groupKeys
  split
  · exact List.Perm.refl _
  · rw [List.perm_ext_iff_of_nodup (firstOccurs_nodup _) (firstOccurs_nodup _)]
    intro k
    rw [firstOccurs_mem, firstOccurs_mem]
    exact (h.map (rowKey dims)).mem_iff

theorem reducedCols_perm_invariant (vdims : List String) (f sf : List ℚ → ℚ)
    {rows rows' : List Row} (h : rows'.Perm rows)
    (hf : ∀ l l' : List ℚ, l.Perm l' → f l = f l')
    (hs : ∀ l l' : List ℚ, l.Perm l' → sf l = sf l') :
    reducedCols vdims f (some sf) rows' = reducedCols vdims f (some sf) rows := by
  unfold reducedCols
  refine flatMap_congr_mem (fun d _ => ?_)
  show (d, Value.num (f (collectNum rows' d)))
        :: [(spreadName d, Value.num (sf (collectNum rows' d)))]
      = (d, Value.num (f (collectNum rows d)))
        :: [(spreadName d, Value.num (sf (collectNum rows d)))]
  rw [hf _ _ (collectNum_perm h d), hs _ _ (collectNum_perm h d)]

/-- Claim C3: aggregation is deterministic — applying `aggregate` twice to
the same Dataset Core yields identical results — and, for a reduction
function and spread function that depend only on the collection of values
(invariant under permutation of their input sequence), permuting the
dataset's rows leaves the aggregate values unchanged: the permuted dataset's
aggregate rows are a permutation of the original aggregate rows (only the
enumeration order, which follows first-occurrence order of the input, can
differ), with identical key- and value-dimension declarations. -/
theorem aggregate_deterministic_and_order_invariant (D D' : Dataset)
    (byDims : List String) (f sf : List ℚ → ℚ)
    (hrows : D'.rows.Perm D.rows) (hv : D'.vdims = D.vdims)
    (hf : ∀ l l' : List ℚ, l.Perm l' → f l = f l')
    (hs : ∀ l l' : List ℚ, l.Perm l' → sf l = sf l') :
    aggregate D byDims f (some sf) = aggregate D byDims f (some sf)
    ∧ (aggregate D' byDims f (some sf)).rows.Perm (aggregate D byDims f (some sf)).rows
    ∧ (aggregate D' byDims f (some sf)).kdims = (aggregate D byDims f (some sf)).kdims
    ∧ (aggregate D' byDims f (some sf)).vdims = (aggregate D byDims f (some sf)).vdims := by
  refine ⟨rfl, ?_, rfl, ?_⟩
  · rw [aggregate_rows_eq, aggregate_rows_eq]
    have hptwise : ∀ k ∈ groupKeys D' byDims,
        keyRow byDims k ++ reducedCols D'.vdims f (some sf) (groupRows D' byDims k)
          = keyRow byDims k ++ reducedCols D.vdims f (some sf) (groupRows D byDims k) := by
      intro k _
      rw [hv, reducedCols_perm_invariant D.vdims f sf (groupRows_perm byDims k hrows) hf hs]
    rw [List.map_congr_left hptwise]
    exact (groupKeys_perm byDims hrows).map _
  · simp [aggregate, hv]

/-- Modelled from the spec: the row predicate of continuous slicing — a row
passes when its value for the sliced dimension is a numeric value `q` with
`lo ≤ q < hi` (inclusive lower bound, exclusive upper bound), judged on the
dimension value, never on row position. -/
def slicePred (dim : String) (lo hi : ℚ) (r : Row) : Bool :=
  match rowVal r dim with
  | some (Value.num q) => decide (lo ≤ q ∧ q < hi)
  | _ => false

/-- Modelled from the spec: `slice(dataset, dimension, lowerBound,
upperBound)` — the Dataset Core restricted to the rows whose value of the
dimension lies in the half-open interval `[lowerBound, upperBound)`. -/
def slice (D : Dataset) (dim : String) (lo hi : ℚ) : Dataset :=
  { D with rows := D.rows.filter (slicePred dim lo hi) }

theorem slicePred_iff (dim : String) (lo hi : ℚ) (r : Row) :
    slicePred dim lo hi r = true
      ↔ ∃ q, rowVal r dim = some (Value.num q) ∧ lo ≤ q ∧ q < hi := by
  unfold slicePred
  cases hc : rowVal r dim with
  | none => simp
  | some v =>
    cases v with
    | str s => simp
    | num q => simp [decide_eq_true_eq]

/-- Claim C5: `slice(D, dim, lo, hi)` keeps exactly the rows whose value of
`dim` satisfies `lo ≤ value < hi` (inclusive lower, exclusive upper),
selecting by dimension value and never by row position: the result's rows
are characterised purely by a per-row value condition, and permuting the
dataset's rows permutes the sliced rows accordingly (the row multiset of the
result is unchanged). -/
theorem slice_value_semantics (D D' : Dataset) (dim : String) (lo hi : ℚ)
    (hperm : D'.rows.Perm D.rows) :
    (∀ r, r ∈ (slice D dim lo hi).rows
        ↔ r ∈ D.rows ∧ ∃ q, rowVal r dim = some (Value.num q) ∧ lo ≤ q ∧ q < hi)
    ∧ (slice D' dim lo hi).rows.Perm ((slice D dim lo hi).rows) := by
  constructor
  · intro r
    rw [slice, List.mem_filter, slicePred_iff]
  · exact hperm.filter _

theorem slicePred_of_lower (dim : String) (lo hi up : ℚ) (r : Row) (h₂ : hi ≤ up)
    (h : slicePred dim lo hi r = true) : slicePred dim lo up r = true := by
  rw [slicePred_iff] at h ⊢
  obtain ⟨q, hq, hl, hu⟩ := h
  exact ⟨q, hq, hl, lt_of_lt_of_le hu h₂⟩

theorem slicePred_of_upper (dim : String) (lo hi up : ℚ) (r : Row) (h₁ : lo ≤ hi)
    (h : slicePred dim hi up r = true) : slicePred dim lo up r = true := by
  rw [slicePred_iff] at h ⊢
  obtain ⟨q, hq, hl, hu⟩ := h
  exact ⟨q, hq, le_trans h₁ hl, hu⟩

theorem slicePred_disjoint (dim : String) (lo hi up : ℚ) (r : Row)
    (h : slicePred dim lo hi r = true) : slicePred dim hi up r = false := by
  rw [slicePred_iff] at h
  obtain ⟨q, hq, _, hu⟩ := h
  rw [Bool.eq_false_iff]
  intro hcontra
  rw [slicePred_iff] at hcontra
  obtain ⟨q', hq', hl', _⟩ := hcontra
  rw [hq] at hq'
  obtain rfl : q = q' := by
    injection hq' with hv
    injection hv
  exact absurd hl' (not_le.mpr hu)

theorem slicePred_covered (dim : String) (lo hi up : ℚ) (r : Row)
    (h : slicePred dim lo up r = true) :
    slicePred dim lo hi r = true ∨ slicePred dim hi up r = true := by
  rw [slicePred_iff] at h
  obtain ⟨q, hq, hl, hu⟩ := h
  by_cases hqh : q < hi
  · exact Or.inl ((slicePred_iff dim lo hi r).mpr ⟨q, hq, hl, hqh⟩)
  · exact Or.inr ((slicePred_iff dim hi up r).mpr ⟨q, hq, not_lt.mp hqh, hu⟩)

theorem filter_slice_partition (dim : String) (lo hi up : ℚ)
    (h₁ : lo ≤ hi) (h₂ : hi ≤ up) :
    ∀ l : List Row,
      (l.filter (slicePred dim lo hi) ++ l.filter (slicePred dim hi up)).Perm
        (l.filter (slicePred dim lo up)) := by
  intro l
  induction l with
  | nil => simp
  | cons r t ih =>
    cases hb₁ : slicePred dim lo hi r with
    | true =>
      have hb₂ := slicePred_disjoint dim lo hi up r hb₁
      have hbig := slicePred_of_lower dim lo hi up r h₂ hb₁
      simp only [List.filter_cons, hb₁, hb₂, hbig, if_true, if_false, List.cons_append]
      exact ih.cons r
    | false =>
      cases hb₂ : slicePred dim hi up r with
      | true =>
        have hbig := slicePred_of_upper dim lo hi up r h₁ hb₂
        simp only [List.filter_cons, hb₁, hb₂, hbig, if_true, if_false]
        exact List.perm_middle.trans (ih.cons r)
      | false =>
        have hbig : slicePred dim lo up r = false := by
          rw [Bool.eq_false_iff]
          intro hcontra
          rcases slicePred_covered dim lo hi up r hcontra with h | h
          · exact absurd h (by rw [hb₁]; exact Bool.false_ne_true)
          · exact absurd h (by rw [hb₂]; exact Bool.false_ne_true)
        simp only [List.filter_cons, hb₁, hb₂, hbig, if_false]
        exact ih

/-- Claim C6 (amended): the two adjacent slices of `D` itself —
`slice(D, dim, lo, hi)` and `slice(D, dim, hi, up)` — partition
`slice(D, dim, lo, up)` when `lo ≤ hi ≤ up`: the concatenation of their
rows is a permutation of the rows of the single larger slice, honoring the
inclusive-lower/exclusive-upper bound at the joint `hi` (a row with value
exactly `hi` falls in the upper slice only). -/
theorem slice_adjacent_partition (D : Dataset) (dim : String) (lo hi up : ℚ)
    (h₁ : lo ≤ hi) (h₂ : hi ≤ up) :
    ((slice D dim lo hi).rows ++ (slice D dim hi up).rows).Perm
      ((slice D dim lo up).rows) :=
  filter_slice_partition dim lo hi up h₁ h₂ D.rows

/-- The default independent-dimension name of a continuous-curve element. -/
def dimX : String := "x"

/-- The default dependent-dimension name of a continuous-curve element. -/
def dimY : String := "y"

/-- A single-row dataset with value 3 for dimension "x", refuting the
claim's literal reading of the slicing partition law. -/
def sliceCexDataset : Dataset :=
  { kdims := [dimX], vdims := [], rows := [[(dimX, Value.num 3)]] }

/-- Claim C6 (counterexample to the literal statement): re-slicing the
*result* of the first slice over the adjacent interval yields nothing (the
two conditions are disjoint), so the union of `slice(D, dim, lo, hi)` and
`slice(slice(D, dim, lo, hi), dim, hi, up)` does not recover
`slice(D, dim, lo, up)`: with one row at value 3 and bounds lo = 0, hi = 2,
up = 4 the union is empty while the larger slice keeps the row. -/
theorem slice_chain_union_counterexample :
    ¬ (((slice sliceCexDataset dimX 0 2).rows
          ++ (slice (slice sliceCexDataset dimX 0 2) dimX 2 4).rows).Perm
        ((slice sliceCexDataset dimX 0 4).rows)) := by
  intro h
  have hlen := h.length_eq
  have h02 : (slice sliceCexDataset dimX 0 2).rows = [] := by
    rw [slice]
    refine List.filter_eq_nil_iff.mpr (fun r hr => ?_)
    have hr' : r = [(dimX, Value.num 3)] := by
      simpa [sliceCexDataset] using hr
    subst hr'
    rw [Bool.not_eq_true, Bool.eq_false_iff]
    intro hcontra
    rw [slicePred_iff] at hcontra
    obtain ⟨q, hq, hl, hu⟩ := hcontra
    have hq3 : q = 3 := by
      simp [rowVal, List.lookup] at hq
      exact hq.symm
    rw [hq3] at hu
    norm_num at hu
  have h04 : (slice sliceCexDataset dimX 0 4).rows = [[("x", Value.num 3)]] := by
    rw [slice]
    refine List.filter_eq_self.mpr (fun r hr => ?_)
    have hr' : r = [(dimX, Value.num 3)] := by
      simpa [sliceCexDataset] using hr
    subst hr'
    rw [slicePred_iff]
    refine ⟨3, ?_, by norm_num, by norm_num⟩
    simp [rowVal, List.lookup]
  have h24 : (slice (slice sliceCexDataset dimX 0 2) dimX 2 4).rows = [] := by
    show ((slice sliceCexDataset dimX 0 2).rows.filter (slicePred dimX 2 4)) = []
    rw [h02]
    rfl
  rw [h02, h24, h04] at hlen
  simp at hlen

/-- Modelled from the spec: a range predicate of `select` — an optional
lower bound (inclusive when present) and an optional upper bound (exclusive
when present); a missing bound denotes an open (unrestricted) side. -/
def rangePred (dim : String) (lo hi : Option ℚ) (r : Row) : Bool :=
  match rowVal r dim with
  | some (Value.num q) =>
      (match lo with
       | none => true
       | some l => decide (l ≤ q))
      && (match hi with
          | none => true
          | some h => decide (q < h))
  | _ => false

/-- Modelled from the spec: `select` with a range predicate on one
dimension — the Dataset Core restricted to the rows satisfying the range
predicate for that dimension. -/
def selectRange (D : Dataset) (dim : String) (lo hi : Option ℚ) : Dataset :=
  { D with rows := D.rows.filter (rangePred dim lo hi) }

/-- Claim C10: a range predicate whose upper bound is `None` denotes an open
(unbounded) side: `select(d = (lo, None))` keeps exactly the rows whose
value of `d` is greater than or equal to `lo`, with no upper restriction;
with both bounds finite, `select` agrees with the
inclusive-lower/exclusive-upper continuous slice exactly. -/
theorem select_open_upper_bound (D : Dataset) (dim : String) (lo hi : ℚ) :
    (∀ r, r ∈ (selectRange D dim (some lo) none).rows
        ↔ r ∈ D.rows ∧ ∃ q, rowVal r dim = some (Value.num q) ∧ lo ≤ q)
    ∧ selectRange D dim (some lo) (some hi) = slice D dim lo hi := by
  constructor
  · intro r
    rw [selectRange, List.mem_filter]
    refine and_congr_right (fun _ => ?_)
    unfold rangePred
    cases hc : rowVal r dim with
    | none => simp
    | some v =>
      cases v with
      | str s => simp
      | num q => simp [decide_eq_true_eq]
  · rw [selectRange, slice, Dataset.mk.injEq]
    refine ⟨rfl, rfl, List.filter_congr (fun r _ => ?_)⟩
    unfold rangePred slicePred
    cases hc : rowVal r dim with
    | none => rfl
    | some v =>
      cases v with
      | str s => rfl
      | num q =>
        show (decide (lo ≤ q) && decide (q < hi)) = decide (lo ≤ q ∧ q < hi)
        exact (Bool.decide_and _ _).symm

/-- Modelled from the spec: the closed tagged-variant set of visual-element
shapes exercised by the notebooks. -/
inductive ShapeTag where
  | curve
  | scatter
  | area
  | spikes
  | bars
  | boxwhisker
deriving DecidableEq, Repr

/-- Modelled from the spec: the per-shape arity contract — a continuous
shape (curve, scatter, area, spikes) requires exactly one independent role
and one-or-more dependent roles; a categorical shape (bars, boxwhisker)
requires one-or-more independent roles and exactly one dependent role. -/
def shapeArityOk : ShapeTag → Nat → Nat → Bool
  | ShapeTag.curve, nk, nv => decide (nk = 1 ∧ 1 ≤ nv)
  | ShapeTag.scatter, nk, nv => decide (nk = 1 ∧ 1 ≤ nv)
  | ShapeTag.area, nk, nv => decide (nk = 1 ∧ 1 ≤ nv)
  | ShapeTag.spikes, nk, nv => decide (nk = 1 ∧ 1 ≤ nv)
  | ShapeTag.bars, nk, nv => decide (1 ≤ nk ∧ nv = 1)
  | ShapeTag.boxwhisker, nk, nv => decide (1 ≤ nk ∧ nv = 1)

/-- Modelled from the spec: a Bound element — an immutable pairing of a
Dataset Core with a declared visual shape tag, the dimension declarations,
the dimension-to-visual-role mapping, the element's group/label
declarations, and an optional explicit visual-distinguishing attribute
(e.g., a color index). -/
structure Bound where
  data : Dataset
  shape : ShapeTag
  kdims : List String
  vdims : List String
  roles : List (String × String)
  label : String
  group : String
  style : Option Nat
deriving DecidableEq, Repr

/-- Modelled from the spec: a shape tag's default role assignment over given
dimension declarations — each key dimension filling an independent role and
each value dimension a dependent role, in declaration order. -/
def defaultRoles (_t : ShapeTag) (kdims vdims : List String) : List (String × String) :=
  kdims.map (fun d => ("independent", d)) ++ vdims.map (fun d => ("dependent", d))

/-- Modelled from the spec: `bind(dataset, shapeTag)` (single-element case) —
a Bound element over the dataset with the shape's default role assignment,
or a `ShapeArityError` (None) when the dimension counts cannot satisfy the
shape's arity. -/
def bind (D : Dataset) (t : ShapeTag) : Option Bound :=
  if shapeArityOk t D.kdims.length D.vdims.length then
    some { data := D, shape := t, kdims := D.kdims, vdims := D.vdims,
           roles := defaultRoles t D.kdims D.vdims, label := "", group := "",
           style := none }
  else none

/-- Modelled from the spec: `cast(boundElement, newShapeTag)` — a new Bound
element with identical dataset reference and dimension declarations,
remapped to the new shape tag's default role assignment, or a
`ShapeArityError` (None) when the existing dimension count cannot satisfy
the new shape's arity. -/
def cast (e : Bound) (t : ShapeTag) : Option Bound :=
  if shapeArityOk t e.kdims.length e.vdims.length then
    some { e with shape := t, roles := defaultRoles t e.kdims e.vdims }
  else none

/-- Claim C7: casting a bound element between compatible shape tags is a
structural identity on the underlying data — the cast element holds the
identical dataset reference, the identical key- and value-dimension
declarations and label, changing only the shape tag and the role mapping's
defaults. -/
theorem cast_structural_identity (D : Dataset) (A B : ShapeTag) (e e' : Bound)
    (hb : bind D A = some e) (hc : cast e B = some e') :
    e'.data = e.data ∧ e.data = D ∧ e'.kdims = e.kdims ∧ e'.vdims = e.vdims
    ∧ e'.label = e.label ∧ e'.shape = B
    ∧ e'.roles = defaultRoles B e.kdims e.vdims := by
  unfold bind at hb
  unfold cast at hc
  split at hb
  · injection hb with hb
    split at hc
    · injection hc with hc
      subst hc
      subst hb
      exact ⟨rfl, rfl, rfl, rfl, rfl, rfl, rfl⟩
    · exact absurd hc (Option.noConfusion)
  · exact absurd hb (Option.noConfusion)

/-- Modelled from the spec: the composition kinds of containers. -/
inductive CompositionKind where
  | layout
  | overlay
  | grid
  | indexedMap
deriving DecidableEq, Repr

/-- Modelled from the spec: a Container — a composite of bound elements
under a composition kind. -/
structure Container where
  kind : CompositionKind
  members : List Bound
deriving DecidableEq, Repr

/-- Modelled from the spec: the error raised by `overlay` on members with
mismatched key-dimension declarations. -/
inductive OverlayError where
  | incompatibleOverlay
deriving DecidableEq, Repr

/-- Modelled from the spec: the cyclic assignment of visual-distinguishing
attributes — members lacking an explicit attribute receive successive
indices modulo the palette size `n`, cycling in member order; members with
an explicit attribute keep it and do not advance the cycle. -/
def assignStyles (n : Nat) : Nat → List Bound → List Bound
  | _, [] => []
  | c, e :: t =>
    match e.style with
    | some _ => e :: assignStyles n c t
    | none => { e with style := some (c % n) } :: assignStyles n (c + 1) t

/-- Whether every member declares the same key dimensions, name-for-name. -/
def sharedKdims : List Bound → Bool
  | [] => true
  | e :: t => t.all (fun e' => decide (e'.kdims = e.kdims))

/-- Modelled from the spec: `overlay(elements...)` — a Container of kind
overlay when all members share identical key-dimension declarations
name-for-name, with cyclic visual attributes (palette size `n`) assigned in
member order to members lacking an explicit one; an
`IncompatibleOverlayError` otherwise. -/
def overlay (n : Nat) (es : List Bound) : Except OverlayError Container :=
  if sharedKdims es then Except.ok ⟨CompositionKind.overlay, assignStyles n 0 es⟩
  else Except.error OverlayError.incompatibleOverlay

theorem sharedKdims_iff (es : List Bound) :
    sharedKdims es = true ↔ ∀ e ∈ es, ∀ e' ∈ es, e.kdims = e'.kdims := by
  cases es with
  | nil => simp [sharedKdims]
  | cons e t =>
    rw [sharedKdims, List.all_eq_true]
    constructor
    · intro h x hx y hy
      have hkd : ∀ z ∈ e :: t, z.kdims = e.kdims := by
        intro z hz
        rcases List.mem_cons.mp hz with rfl | hz
        · rfl
        · exact decide_eq_true_eq.mp (h z hz)
      rw [hkd x hx, hkd y hy]
    · intro h e' he'
      exact decide_eq_true_eq.mpr
        (h e' (List.mem_cons_of_mem e he') e (List.mem_cons_self e t))

/-- Claim C8: `overlay` succeeds if and only if all members share identical
key-dimension declarations name-for-name (failing with
`IncompatibleOverlayError` otherwise), and on success with two members that
have identical key dimensions but different labels and no explicit visual
attribute, it assigns them the distinct cyclic attribute indices 0 and 1,
cycling in member order. -/
theorem overlay_compatibility_and_cycle (n : Nat) (es : List Bound) (e₁ e₂ : Bound)
    (hk : e₁.kdims = e₂.kdims) (hl : e₁.label ≠ e₂.label)
    (h₁ : e₁.style = none) (h₂ : e₂.style = none) (hn : 2 ≤ n) :
    ((∃ c, overlay n es = Except.ok c) ↔ ∀ e ∈ es, ∀ e' ∈ es, e.kdims = e'.kdims)
    ∧ overlay n [e₁, e₂]
        = Except.ok ⟨CompositionKind.overlay,
            [{ e₁ with style := some 0 }, { e₂ with style := some 1 }]⟩ := by
  constructor
  · rw [← sharedKdims_iff]
    unfold overlay
    split
    · next h => simp [h]
    · next h =>
      simp only [Bool.not_eq_true] at h
      rw [h]
      constructor
      · rintro ⟨c, hc⟩
        exact absurd hc (Except.noConfusion)
      · intro hcontra
        exact absurd hcontra Bool.false_ne_true
  · have hs : sharedKdims [e₁, e₂] = true := by
      rw [sharedKdims_iff]
      intro x hx y hy
      have hone : ∀ z ∈ [e₁, e₂], z.kdims = e₂.kdims := by
        intro z hz
        rcases List.mem_cons.mp hz with rfl | hz
        · exact hk
        · rw [List.mem_singleton.mp hz]
      rw [hone x hx, hone y hy]
    rw [overlay, if_pos hs]
    have hstyles : assignStyles n 0 [e₁, e₂]
        = [{ e₁ with style := some 0 }, { e₂ with style := some 1 }] := by
      simp only [assignStyles, h₁, h₂, Nat.zero_mod, Nat.zero_add]
      rw [Nat.mod_eq_of_lt (Nat.lt_of_lt_of_le Nat.one_lt_two hn)]
    rw [hstyles]

/-- Modelled from the spec: the continuous-curve dataset built from a
sequence of (x, y) samples — one row per sample, key dimension "x", value
dimension "y". -/
def curvePoints (pts : List (ℚ × ℚ)) : Dataset :=
  { kdims := ["x"], vdims := ["y"],
    rows := pts.map (fun p => [("x", Value.num p.1), ("y", Value.num p.2)]) }

/-- Modelled from the spec: constructing a continuous-curve element from a
pair of numeric arrays of samples. -/
def curveOfArrayPair (xs ys : Array ℚ) : Option Bound :=
  bind (curvePoints (xs.toList.zip ys.toList)) ShapeTag.curve

/-- Modelled from the spec: constructing a continuous-curve element from a
pair of lists of samples. -/
def curveOfListPair (xs ys : List ℚ) : Option Bound :=
  bind (curvePoints (xs.zip ys)) ShapeTag.curve

/-- Modelled from the spec: constructing a continuous-curve element from a
dictionary of named columns (requiring the default "x" and "y" columns). -/
def curveOfColumns (cols : List (String × List ℚ)) : Option Bound :=
  match cols.lookup dimX, cols.lookup dimY with
  | some xs, some ys => bind (curvePoints (xs.zip ys)) ShapeTag.curve
  | _, _ => none

/-- Claim C9: element construction is data-format agnostic — for the same
sequence of (x, y) samples, the array-pair constructor, the list-pair
constructor and the named-column-dictionary constructor yield identical
continuous-curve elements (the same datapoints, dimensions and shape). -/
theorem curve_constructors_agree (xs ys : Array ℚ) :
    curveOfArrayPair xs ys = curveOfListPair xs.toList ys.toList
    ∧ curveOfListPair xs.toList ys.toList
        = curveOfColumns [("x", xs.toList), ("y", ys.toList)] := by
  constructor
  · rfl
  · rfl

/-- A concrete observation of the macro-economic running example: country
"A", growth 2. -/
def aggRowA : Row := [("country", Value.str "A"), ("growth", Value.num 2)]

/-- A concrete observation of the macro-economic running example: country
"A", growth 4. -/
def aggRowB : Row := [("country", Value.str "A"), ("growth", Value.num 4)]

/-- A concrete two-row dataset keyed by country. -/
def aggDemo : Dataset :=
  { kdims := ["country"], vdims := ["growth"], rows := [aggRowA, aggRowB] }

/-- The same dataset with its two rows transposed. -/
def aggDemoPermuted : Dataset :=
  { kdims := ["country"], vdims := ["growth"], rows := [aggRowB, aggRowA] }

/-- Witness for the aggregation determinism claim: aggregating the two-row
dataset with a permutation-invariant reduction (sum) and spread (count)
after transposing its rows yields a permutation of the original aggregate's
rows. -/
theorem aggregate_order_invariant_witness :
    (aggregate aggDemoPermuted ["country"] List.sum
        (some (fun l => (l.length : ℚ)))).rows.Perm
      ((aggregate aggDemo ["country"] List.sum
        (some (fun l => (l.length : ℚ)))).rows) :=
  (aggregate_deterministic_and_order_invariant aggDemo aggDemoPermuted
      ["country"] List.sum (fun l => (l.length : ℚ))
      (List.Perm.swap aggRowA aggRowB []) rfl
      (fun _ _ h => h.sum_eq)
      (fun l l' h => by
        show ((l.length : ℚ)) = (l'.length : ℚ)
        rw [h.length_eq])).2.1

/-- A concrete observation at dimension-"x" value 1. -/
def sliceRowLow : Row := [(dimX, Value.num 1)]

/-- A concrete observation at dimension-"x" value 5. -/
def sliceRowHigh : Row := [(dimX, Value.num 5)]

/-- A concrete two-row dataset over the continuous dimension "x". -/
def sliceDemo : Dataset :=
  { kdims := [dimX], vdims := [], rows := [sliceRowLow, sliceRowHigh] }

/-- The same dataset with its two rows transposed. -/
def sliceDemoPermuted : Dataset :=
  { kdims := [dimX], vdims := [], rows := [sliceRowHigh, sliceRowLow] }

/-- Witness for the slicing-semantics claim: slicing the transposed two-row
dataset over [0, 2) yields a permutation of slicing the original. -/
theorem slice_value_semantics_witness :
    (slice sliceDemoPermuted dimX 0 2).rows.Perm
      ((slice sliceDemo dimX 0 2).rows) :=
  (slice_value_semantics sliceDemo sliceDemoPermuted dimX 0 2
      (List.Perm.swap sliceRowLow sliceRowHigh [])).2

/-- Witness for the amended slicing partition law at the concrete bounds
0 ≤ 2 ≤ 4 over the two-row dataset. -/
theorem slice_adjacent_partition_witness :
    ((slice sliceDemo dimX 0 2).rows ++ (slice sliceDemo dimX 2 4).rows).Perm
      ((slice sliceDemo dimX 0 4).rows) :=
  slice_adjacent_partition sliceDemo dimX 0 2 4 (by norm_num) (by norm_num)

/-- A concrete dataset with one key and one value dimension, as bound to a
curve in the notebooks. -/
def castDemoDataset : Dataset :=
  { kdims := ["year"], vdims := ["unem"], rows := [] }

/-- The result of binding the concrete dataset to the curve shape. -/
def castDemoCurve : Bound :=
  { data := castDemoDataset, shape := ShapeTag.curve, kdims := ["year"],
    vdims := ["unem"], roles := defaultRoles ShapeTag.curve ["year"] ["unem"],
    label := "", group := "", style := none }

/-- The result of casting the bound curve to the scatter shape. -/
def castDemoScatter : Bound :=
  { castDemoCurve with
    shape := ShapeTag.scatter
    roles := defaultRoles ShapeTag.scatter ["year"] ["unem"] }

/-- Witness for the cast-structural-identity claim at the concrete bound
curve element cast to a scatter element. -/
theorem cast_structural_identity_witness :
    castDemoScatter.data = castDemoCurve.data
    ∧ castDemoCurve.data = castDemoDataset
    ∧ castDemoScatter.kdims = castDemoCurve.kdims
    ∧ castDemoScatter.vdims = castDemoCurve.vdims
    ∧ castDemoScatter.label = castDemoCurve.label
    ∧ castDemoScatter.shape = ShapeTag.scatter
    ∧ castDemoScatter.roles
        = defaultRoles ShapeTag.scatter castDemoCurve.kdims castDemoCurve.vdims :=
  cast_structural_identity castDemoDataset ShapeTag.curve ShapeTag.scatter
    castDemoCurve castDemoScatter rfl rfl

/-- A concrete bound trajectory labelled "Cannonball" with no explicit
visual attribute. -/
def overlayCannonball : Bound :=
  { data := castDemoDataset, shape := ShapeTag.curve, kdims := [dimX],
    vdims := [dimY], roles := [], label := "Cannonball", group := "Trajectory",
    style := none }

/-- A concrete bound trajectory labelled "Tennis Ball" with no explicit
visual attribute. -/
def overlayTennisBall : Bound :=
  { data := castDemoDataset, shape := ShapeTag.curve, kdims := [dimX],
    vdims := [dimY], roles := [], label := "Tennis Ball", group := "Trajectory",
    style := none }

/-- Witness for the overlay claim: overlaying the two identically-keyed,
differently-labelled trajectories with palette size 2 succeeds and assigns
them the cyclic attribute indices 0 and 1. -/
theorem overlay_compatibility_and_cycle_witness :
    ((∃ c, overlay 2 [overlayCannonball, overlayTennisBall] = Except.ok c)
        ↔ ∀ e ∈ [overlayCannonball, overlayTennisBall],
            ∀ e' ∈ [overlayCannonball, overlayTennisBall], e.kdims = e'.kdims)
    ∧ overlay 2 [overlayCannonball, overlayTennisBall]
        = Except.ok ⟨CompositionKind.overlay,
            [{ overlayCannonball with style := some 0 },
             { overlayTennisBall with style := some 1 }]⟩ :=
  overlay_compatibility_and_cycle 2 [overlayCannonball, overlayTennisBall]
    overlayCannonball overlayTennisBall rfl (by decide) rfl rfl (by decide)

end PyViz
